import Mathlib

/-!
Verification of the crossword CSP solver in `generate.py`
(class `CrosswordCreator`).

The solver state is embedded shallowly:

* a Python string is a `List Char` (`Word`);
* the mutable dictionary `self.domains` is a total function
  `Variable → List Word` (`Doms`); a Python set of words is represented by
  the list of its elements in iteration order;
* the mutable assignment dictionary is an insertion-ordered association
  list `List (Variable × Word)` (`Assign`);
* in-place mutation is embedded as explicit state passing: a method that
  mutates `self.domains` (or the assignment) returns the new state.

The class `Crossword` (file `crossword.py`) is not part of the sources;
only its interface is consumed here.  Its data is modelled from the spec
(sections 2, 3 and 6): a list of slots, the word pool, and the overlap map,
with `neighbors` derived from the overlap map.
-/

/-- Modelled from the spec: a slot (`Variable` in `crossword.py`, which is
not among the sources).  Identity is (start row, start column, orientation,
length); the orientation is only ever compared for equality here, so it is
a `Bool`. -/
structure Variable where
  i : Nat
  j : Nat
  direction : Bool
  length : Nat
deriving DecidableEq, Repr

/-- A Python string: list of characters. -/
abbrev Word := List Char

/-- The state of `self.domains`: candidate words per slot. -/
abbrev Doms := Variable → List Word

/-- The assignment dictionary, insertion-ordered, keys unique. -/
abbrev Assign := List (Variable × Word)

/-- Modelled from the spec: the `Crossword` puzzle model (`crossword.py` is
not among the sources).  It exposes the slot set, the word pool, and the
overlap map: `none` for no shared cell, `some (i, j)` when character `i` of
the first slot's word must equal character `j` of the second slot's word.
The spec's overlap map is on unordered pairs of slots, so presence of an
overlap is symmetric; we read it in the `(v, w)` direction. -/
structure Crossword where
  /-- The slot set (`crossword.variables` in the source; `variables` is a
  reserved word in Lean). -/
  vars : List Variable
  words : List Word
  overlaps : Variable → Variable → Option (Nat × Nat)

/-- Modelled from the spec: `Neighbors(slot)` is derived and read-only, the
set of slots with a non-`None` overlap entry with the given slot (a slot is
not its own neighbor). -/
def neighbors (cw : Crossword) (v : Variable) : List Variable :=
  cw.vars.filter (fun w => w ≠ v && (cw.overlaps v w).isSome)

/-- Dictionary write `d[x] = l`, embedding in-place mutation of the set
stored under key `x`. -/
def updateDom (d : Doms) (x : Variable) (l : List Word) : Doms :=
  fun u => if u = x then l else d u

/-- `CrosswordCreator.__init__`: each slot's domain starts as a copy of the
full word pool. -/
def initDomains (cw : Crossword) : Doms :=
  fun _ => cw.words

/-- The `for word in copy: if cond(word): live.remove(word)` pattern used by
`enforce_node_consistency` (and, via `reviseLoop`, by `revise`): iterate
over a snapshot (first list) and erase matching elements from the live set
(second list). -/
def eraseIf (p : Word → Bool) : List Word → List Word → List Word
  | [], cur => cur
  | w :: rest, cur => eraseIf p rest (if p w then cur.erase w else cur)

/-- `CrosswordCreator.enforce_node_consistency` (lines 89-103): for every
slot, delete from its domain the words whose length differs from the slot's
length.  The source iterates a copy of the domain and removes from the live
set; the outer loop runs over the dictionary's keys, i.e. the slots. -/
def enforceNodeConsistency (cw : Crossword) (doms : Doms) : Doms :=
  cw.vars.foldl
    (fun d var => updateDom d var (eraseIf (fun w => w.length != var.length) (d var) (d var)))
    doms

/-- The `for x_value in d_copy` loop of `revise` (lines 125-135): for each
word of the snapshot of x's domain, if no word of y's (current) domain
agrees at the overlap offsets, remove it from x's domain.  The domain map
is threaded because the source mutates `self.domains[x]` in place. -/
def reviseLoop (x y : Variable) (i j : Nat) : List Word → Doms → Doms
  | [], d => d
  | xv :: rest, d =>
      let check := (d y).any fun yv => xv[i]? == yv[j]?
      reviseLoop x y i j rest
        (if check then d else updateDom d x ((d x).erase xv))

/-- `CrosswordCreator.revise` (lines 105-136).  The `revision` flag is
initialized to `False` and never reassigned in the source, so the returned
Bool is literally `false` on every path. -/
def revise (cw : Crossword) (d : Doms) (x y : Variable) : Doms × Bool :=
  (match cw.overlaps x y with
   | none => d
   | some (i, j) => reviseLoop x y i j (d x) d,
   false)

/-- The default worklist of `ac3` (lines 147-157): every (slot, neighbor)
pair in turn, appended unless already present. -/
def buildArcs (cw : Crossword) : List (Variable × Variable) :=
  cw.vars.foldl
    (fun arcs var =>
      (neighbors cw var).foldl
        (fun arcs2 nb => if (var, nb) ∈ arcs2 then arcs2 else arcs2 ++ [(var, nb)])
        arcs)
    []

/-- The `while len(arcs) != 0` loop of `ac3` (lines 159-176).  The source
pops from the end of the Python list and appends at the end; here the
worklist is held top-first (so the caller reverses the initial list, a pop
is a head match, and the source's in-order appends become a reversed block
consed in front).  The `revised` branch re-enqueues `(neighbor, x)` arcs
and fails on an empty domain exactly as the source does; it is
unreachable because `revise` always returns `false`. -/
def ac3Loop (cw : Crossword) (arcs : List (Variable × Variable)) (doms : Doms) :
    Doms × Bool :=
  match arcs with
  | [] => (doms, true)
  | (x, y) :: rest =>
      let doms' := (revise cw doms x y).1
      if h : (revise cw doms x y).2 then
        if (doms' x).length = 0 then (doms', false)
        else ac3Loop cw
          ((((neighbors cw x).filter (fun n => n != y)).map (fun n => (n, x))).reverse ++ rest)
          doms'
      else ac3Loop cw rest doms'
termination_by arcs.length
decreasing_by
  · exact absurd h (by simp [revise])
  · simp

/-- `CrosswordCreator.ac3` (lines 138-176): default worklist when `arcs` is
`None`, else the given list. -/
def ac3 (cw : Crossword) (arcsOpt : Option (List (Variable × Variable))) (doms : Doms) :
    Doms × Bool :=
  ac3Loop cw
    (match arcsOpt with
     | none => buildArcs cw
     | some l => l).reverse
    doms

/-- `CrosswordCreator.assignment_complete` (lines 178-186): a bare length
comparison between the slot set and the assignment. -/
def assignmentComplete (cw : Crossword) (a : Assign) : Bool :=
  cw.vars.length == a.length

/-- `var in assignment`: key membership. -/
def assignedIn (a : Assign) (v : Variable) : Bool :=
  a.any fun p => p.1 == v

/-- `assignment[var]` as an option. -/
def lookupA (a : Assign) (v : Variable) : Option Word :=
  (a.find? fun p => p.1 == v).map (·.2)

/-- `assignment.update({var: value})`: replace in place if the key exists,
else append. -/
def updateA (a : Assign) (v : Variable) (w : Word) : Assign :=
  if a.any (fun p => p.1 == v) then
    a.map fun p => if p.1 == v then (v, w) else p
  else a ++ [(v, w)]

/-- `assignment.pop(var)`: drop the key. -/
def popA (a : Assign) (v : Variable) : Assign :=
  a.filter fun p => p.1 != v

/-- `CrosswordCreator.consistent` (lines 188-215): pairwise-distinct words,
matching lengths, and agreement at overlap offsets for assigned neighbors.
The source iterates the dictionary's keys and looks each key up; with
unique keys that lookup yields the pair's own value, so the first two
clauses read the pair directly.  The source unpacks `overlaps[var, nb]`
and looks `nb` up unconditionally; a `neighbors` member always has an
overlap and the `nb` lookup is guarded by the membership test, so the
fallback `true` branches of the two matches are unreachable. -/
def consistent (cw : Crossword) (a : Assign) : Bool :=
  (a.all fun p => a.all fun q => p.1 == q.1 || p.2 != q.2) &&
  (a.all fun p => p.1.length == p.2.length) &&
  (a.all fun p => (neighbors cw p.1).all fun nb =>
    !(assignedIn a nb) ||
    (match cw.overlaps p.1 nb with
     | some (i, j) =>
         match lookupA a nb with
         | some wnb => p.2[i]? == wnb[j]?
         | none => true
     | none => true))

/-- The count computed for one candidate `value` by
`order_domain_values` (lines 230-251): over unassigned neighbors, one for
each neighbor word equal to `value` (the equality case skips the overlap
test, as the source's `continue` does), plus one for each neighbor word
disagreeing at the overlap offsets. -/
def ruleOutCount (cw : Crossword) (doms : Doms) (var : Variable) (a : Assign)
    (value : Word) : Nat :=
  (neighbors cw var).foldl
    (fun n nb =>
      if assignedIn a nb then n
      else (doms nb).foldl
        (fun m nv =>
          if value == nv then m + 1
          else
            match cw.overlaps var nb with
            | none => m
            | some (i, j) => if value[i]? == nv[j]? then m else m + 1)
        n)
    0

/-- `CrosswordCreator.order_domain_values` (lines 217-262): the domain of
`var` sorted ascending by `ruleOutCount` (Python's `sorted` is stable, as
is `mergeSort`; the dictionary round-trip in the source preserves the
domain's iteration order for ties). -/
def orderDomainValues (cw : Crossword) (doms : Doms) (var : Variable) (a : Assign) :
    List Word :=
  (doms var).mergeSort fun v w =>
    decide (ruleOutCount cw doms var a v ≤ ruleOutCount cw doms var a w)

/-- Placeholder slot used only as the default of `headD`; in the source
`min_var` is never empty when it is read. -/
def defaultVar : Variable := ⟨0, 0, false, 0⟩

/-- The first loop of `select_unassigned_variable` (lines 276-284):
`min_var` starts as `[next(iter(unassigned))]`; a strictly smaller domain
resets the list, an equal-sized domain appends (the two `if`s are not
exclusive in the source: after a reset the same slot is also appended). -/
def minLoop (doms : Doms) : List Variable → List Variable → List Variable
  | [], acc => acc
  | v :: rest, acc =>
      let acc1 :=
        if (doms v).length < (doms (acc.headD defaultVar)).length then [v] else acc
      let acc2 :=
        if (doms v).length = (doms (acc1.headD defaultVar)).length then acc1 ++ [v] else acc1
      minLoop doms rest acc2

/-- The second loop of `select_unassigned_variable` (lines 287-293): keep
the first slot of `min_var` whose neighbor count strictly exceeds the
running maximum, which starts at `min_var[0]`. -/
def degLoop (cw : Crossword) : List Variable → Nat → Variable → Variable
  | [], _, best => best
  | v :: rest, bd, best =>
      if (neighbors cw v).length > bd then degLoop cw rest (neighbors cw v).length v
      else degLoop cw rest bd best

/-- `CrosswordCreator.select_unassigned_variable` (lines 264-293).  The
source iterates the Python set `total - assigned`; set iteration order is
arbitrary, and here it is the order of the slot list. -/
def selectUnassignedVariable (cw : Crossword) (doms : Doms) (a : Assign) : Variable :=
  let unassigned := cw.vars.filter fun v => !assignedIn a v
  let minVar := minLoop doms unassigned [unassigned.headD defaultVar]
  degLoop cw minVar (neighbors cw (minVar.headD defaultVar)).length
    (minVar.headD defaultVar)

/-- The `for value in self.order_domain_values(...)` loop of `backtrack`
(lines 309-319).  `bt` is the recursive call at the smaller fuel.  The
source builds `assi_copy` (a copy updated with `var: value`), checks
consistency, and only then performs the same update on the live assignment;
both denote `updateA a var w`.  On a failed recursive call the source pops
`var` from the (mutated, then restored) assignment and continues. -/
def tryValues (cw : Crossword) (bt : Assign → Assign × Bool) (var : Variable) :
    List Word → Assign → Assign × Bool
  | [], a => (a, false)
  | w :: ws, a =>
      if consistent cw (updateA a var w) then
        let r := bt (updateA a var w)
        if r.2 then r
        else tryValues cw bt var ws (popA r.1 var)
      else tryValues cw bt var ws a

/-- `CrosswordCreator.backtrack` (lines 295-320), embedded with explicit
fuel bounding the recursion depth.  The source mutates one shared dict and
returns either that dict or `None`; here the pair is (final state of the
dict, success flag), the returned solution being the final state itself.
From the empty assignment the recursion depth is at most the number of
slots, so the fuel `cw.vars.length + 1` used by `solve` is never
exhausted. -/
def backtrack (cw : Crossword) (doms : Doms) (fuel : Nat) : Assign → Assign × Bool :=
  match fuel with
  | 0 => fun a => (a, false)
  | fuel' + 1 => fun a =>
      if assignmentComplete cw a then (a, true)
      else
        let var := selectUnassignedVariable cw doms a
        tryValues cw (backtrack cw doms fuel') var (orderDomainValues cw doms var a) a

/-- `CrosswordCreator.solve` (lines 81-87): node consistency, then `ac3`
(its Bool result is discarded by the source), then backtracking search from
the empty assignment. -/
def solve (cw : Crossword) : Option Assign :=
  let d1 := enforceNodeConsistency cw (initDomains cw)
  let d2 := (ac3 cw none d1).1
  let (r, ok) := backtrack cw d2 (cw.vars.length + 1) []
  if ok then some r else none

/-! Concrete puzzles used as failing inputs and witnesses. -/

/-- Two crossing length-1 slots. -/
def A4 : Variable := ⟨0, 0, false, 1⟩

def B4 : Variable := ⟨0, 1, false, 1⟩

/-- Two slots sharing their only cell. -/
def cw4 : Crossword :=
  ⟨[A4, B4], [['a']],
   fun v w =>
     if (v = A4 ∧ w = B4) ∨ (v = B4 ∧ w = A4) then some (0, 0) else none⟩

/-- `x`'s domain holds `"a"`, `y`'s domain is empty. -/
def doms4 : Doms :=
  fun v => if v = A4 then [['a']] else []

def A5 : Variable := ⟨0, 0, false, 1⟩

def B5 : Variable := ⟨0, 1, false, 1⟩

def C5 : Variable := ⟨0, 2, false, 1⟩

/-- A chain of three length-1 slots: A-B and B-C overlap, A-C do not. -/
def cw5 : Crossword :=
  ⟨[A5, B5, C5], [['a'], ['b']],
   fun v w =>
     if (v = A5 ∧ w = B5) ∨ (v = B5 ∧ w = A5) ∨
        (v = B5 ∧ w = C5) ∨ (v = C5 ∧ w = B5) then some (0, 0) else none⟩

/-- Domains for the chain: A = {"a"}, B = C = {"a", "b"}. -/
def doms5 : Doms :=
  fun v =>
    if v = A5 then [['a']]
    else if v = B5 then [['a'], ['b']]
    else if v = C5 then [['a'], ['b']]
    else []

def V6 : Variable := ⟨0, 0, true, 2⟩

/-- One length-2 slot, but the pool only has a length-1 word. -/
def cw6 : Crossword := ⟨[V6], [['a']], fun _ _ => none⟩

/-! ### Basic lemmas about the domain map and `revise` -/

theorem updateDom_self (d : Doms) (x : Variable) (l : List Word) :
    updateDom d x l x = l := by
  simp [updateDom]

theorem updateDom_ne (d : Doms) (x : Variable) (l : List Word) (u : Variable)
    (h : u ≠ x) : updateDom d x l u = d u := by
  simp [updateDom, h]

theorem revise_fst (cw : Crossword) (d : Doms) (x y : Variable) :
    (revise cw d x y).1 =
      (match cw.overlaps x y with
       | none => d
       | some (i, j) => reviseLoop x y i j (d x) d) := rfl

theorem revise_snd (cw : Crossword) (d : Doms) (x y : Variable) :
    (revise cw d x y).2 = false := rfl

theorem reviseLoop_frame (x y : Variable) (i j : Nat) :
    ∀ (l : List Word) (d : Doms) (u : Variable), u ≠ x →
      reviseLoop x y i j l d u = d u := by
  intro l
  induction l with
  | nil => intro d u _; rfl
  | cons xv rest ih =>
      intro d u h
      simp only [reviseLoop]
      rw [ih _ _ h]
      split
      · rfl
      · exact updateDom_ne _ _ _ _ h

theorem revise_frame (cw : Crossword) (d : Doms) (x y : Variable)
    (u : Variable) (h : u ≠ x) : (revise cw d x y).1 u = d u := by
  rw [revise_fst]
  cases ho : cw.overlaps x y with
  | none => rfl
  | some p => exact reviseLoop_frame x y p.1 p.2 (d x) d u h

theorem diff_cons_of_forall_ne {α : Type} [BEq α] [LawfulBEq α] (a : α) :
    ∀ (s t : List α), (∀ b ∈ s, b ≠ a) → (a :: t).diff s = a :: t.diff s := by
  intro s
  induction s with
  | nil => intro t _; simp
  | cons b s' ih =>
      intro t h
      have hba : ¬(a == b) = true := by
        simp only [beq_iff_eq]
        exact fun he => (h b (by simp)) he.symm
      rw [List.diff_cons, List.erase_cons_tail hba,
        ih _ (fun c hc => h c (by simp [hc])), List.diff_cons]

theorem diff_self_filter {α : Type} [BEq α] [LawfulBEq α] (p : α → Bool) :
    ∀ l : List α, l.diff (l.filter p) = l.filter (fun a => !p a) := by
  intro l
  induction l with
  | nil => simp
  | cons a t ih =>
      by_cases hp : p a = true
      · rw [List.filter_cons_of_pos hp, List.diff_cons, List.erase_cons_head, ih,
          List.filter_cons_of_neg (by simp [hp])]
      · rw [List.filter_cons_of_neg hp,
          diff_cons_of_forall_ne a (t.filter p) t
            (fun b hb hba => hp (hba ▸ (List.mem_filter.mp hb).2)),
          ih, List.filter_cons_of_pos (by simp [hp])]

theorem eraseIf_eq_diff (p : Word → Bool) :
    ∀ (l cur : List Word), eraseIf p l cur = cur.diff (l.filter p) := by
  intro l
  induction l with
  | nil => intro cur; simp [eraseIf]
  | cons w rest ih =>
      intro cur
      by_cases hp : p w = true
      · simp only [eraseIf, if_pos hp]
        rw [ih, List.filter_cons_of_pos hp, List.diff_cons]
      · simp only [eraseIf, if_neg hp]
        rw [ih, List.filter_cons_of_neg hp]

theorem eraseIf_self (p : Word → Bool) (l : List Word) :
    eraseIf p l l = l.filter (fun a => !p a) := by
  rw [eraseIf_eq_diff, diff_self_filter]

theorem reviseLoop_x (x y : Variable) (i j : Nat) (hxy : x ≠ y) :
    ∀ (l : List Word) (d : Doms),
      reviseLoop x y i j l d x =
        eraseIf (fun xv => !((d y).any fun yv => xv[i]? == yv[j]?)) l (d x) := by
  intro l
  induction l with
  | nil => intro d; rfl
  | cons xv rest ih =>
      intro d
      simp only [reviseLoop, eraseIf]
      by_cases hc : ((d y).any fun yv => xv[i]? == yv[j]?) = true
      · rw [if_pos hc, ih d, if_neg (by simp [hc])]
      · rw [if_neg hc, ih (updateDom d x ((d x).erase xv)), if_pos (by simp [hc]),
          updateDom_ne d x _ y (Ne.symm hxy), updateDom_self]

theorem revise_x_of_overlap (cw : Crossword) (d : Doms) (x y : Variable)
    (i j : Nat) (hxy : x ≠ y) (ho : cw.overlaps x y = some (i, j)) :
    (revise cw d x y).1 x =
      (d x).filter (fun xv => (d y).any fun yv => xv[i]? == yv[j]?) := by
  rw [revise_fst, ho]
  show reviseLoop x y i j (d x) d x =
    (d x).filter (fun xv => (d y).any fun yv => xv[i]? == yv[j]?)
  rw [reviseLoop_x x y i j hxy (d x) d, eraseIf_self]
  simp only [Bool.not_not]

/-- C2: after `revise(x, y)` with overlap `(i, j)`, a word survives in x's
domain iff it was there before and some word of y's (pre-call) domain
agrees with it at the overlap offsets; with no overlap, no domain entry
changes.  (The hypothesis `x ≠ y` reflects that an arc relates two distinct
slots.) -/
theorem revise_prunes_exactly_unsupported (cw : Crossword) (d : Doms)
    (x y : Variable) (hxy : x ≠ y) :
    (∀ i j, cw.overlaps x y = some (i, j) →
      ∀ wx, wx ∈ (revise cw d x y).1 x ↔
        wx ∈ d x ∧ ∃ wy ∈ d y, wx[i]? = wy[j]?) ∧
    (cw.overlaps x y = none → ∀ u, (revise cw d x y).1 u = d u) := by
  constructor
  · intro i j ho wx
    rw [revise_x_of_overlap cw d x y i j hxy ho, List.mem_filter, List.any_eq_true]
    simp only [beq_iff_eq]
  · intro ho u
    rw [revise_fst, ho]

theorem revise_prunes_exactly_unsupported_witness :
    A4 ≠ B4 ∧
    ((∀ i j, cw4.overlaps A4 B4 = some (i, j) →
      ∀ wx, wx ∈ (revise cw4 doms4 A4 B4).1 A4 ↔
        wx ∈ doms4 A4 ∧ ∃ wy ∈ doms4 B4, wx[i]? = wy[j]?) ∧
    (cw4.overlaps A4 B4 = none → ∀ u, (revise cw4 doms4 A4 B4).1 u = doms4 u)) :=
  ⟨by decide, revise_prunes_exactly_unsupported cw4 doms4 A4 B4 (by decide)⟩

/-- C9: `revise(x, y)` changes no domain other than x's — in particular
y's domain is untouched. -/
theorem revise_leaves_other_domains_unchanged (cw : Crossword) (d : Doms)
    (x y u : Variable) (h : u ≠ x) : (revise cw d x y).1 u = d u :=
  revise_frame cw d x y u h

theorem revise_leaves_other_domains_unchanged_witness :
    B4 ≠ A4 ∧ (revise cw4 doms4 A4 B4).1 B4 = doms4 B4 :=
  ⟨by decide, revise_leaves_other_domains_unchanged cw4 doms4 A4 B4 B4 (by decide)⟩

/-- C3 (counter-evidence): on the concrete puzzle `cw4` the call
`revise(A4, B4)` removes the word `"a"` from A4's domain — a revision is
made — and still returns `False`: the source's `revision` flag is never
set, contradicting the docstring of `revise` (lines 111-112). -/
theorem revise_returns_false_despite_removal :
    (revise cw4 doms4 A4 B4).1 A4 = [] ∧ doms4 A4 ≠ [] ∧
    (revise cw4 doms4 A4 B4).2 = false := by
  decide

/-! ### `ac3` runs one pass of prunes and always returns `true` -/

theorem ac3Loop_eq_foldl (cw : Crossword) :
    ∀ (arcs : List (Variable × Variable)) (doms : Doms),
      ac3Loop cw arcs doms =
        (arcs.foldl (fun d p => (revise cw d p.1 p.2).1) doms, true) := by
  intro arcs
  induction arcs with
  | nil => intro doms; simp [ac3Loop]
  | cons a rest ih =>
      intro doms
      obtain ⟨x, y⟩ := a
      rw [ac3Loop]
      rw [dif_neg (by simp [revise_snd])]
      rw [ih, List.foldl_cons]

theorem ac3_eq (cw : Crossword) (arcsOpt : Option (List (Variable × Variable)))
    (doms : Doms) :
    ac3 cw arcsOpt doms =
      ((match arcsOpt with
        | none => buildArcs cw
        | some l => l).reverse.foldl
          (fun (d : Doms) (p : Variable × Variable) => (revise cw d p.1 p.2).1) doms,
       true) := by
  rw [ac3.eq_def, ac3Loop_eq_foldl]

theorem reviseLoop_mono (x y : Variable) (i j : Nat) :
    ∀ (l : List Word) (d : Doms) (u : Variable), reviseLoop x y i j l d u ⊆ d u := by
  intro l
  induction l with
  | nil => intro d u; exact fun _ h => h
  | cons xv rest ih =>
      intro d u
      simp only [reviseLoop]
      refine (ih _ u).trans ?_
      split
      · exact fun _ h => h
      · by_cases hu : u = x
        · subst hu; rw [updateDom_self]; exact List.erase_subset _ _
        · rw [updateDom_ne _ _ _ _ hu]; exact fun _ h => h

theorem revise_mono (cw : Crossword) (d : Doms) (x y u : Variable) :
    (revise cw d x y).1 u ⊆ d u := by
  rw [revise_fst]
  cases ho : cw.overlaps x y with
  | none => exact fun _ h => h
  | some p =>
      obtain ⟨i, j⟩ := p
      exact reviseLoop_mono x y i j (d x) d u

theorem foldl_revise_mono (cw : Crossword) :
    ∀ (l : List (Variable × Variable)) (d : Doms) (u : Variable),
      (l.foldl (fun dd p => (revise cw dd p.1 p.2).1) d) u ⊆ d u := by
  intro l
  induction l with
  | nil => intro d u; exact fun _ h => h
  | cons p rest ih =>
      intro d u
      rw [List.foldl_cons]
      exact (ih _ u).trans (revise_mono cw d p.1 p.2 u)

/-- C4 (counter-evidence): on the concrete two-slot puzzle `cw4`, during
`ac3` with the default worklist the call `revise(A4, B4)` empties A4's
domain (B4's domain is already empty), yet `ac3` returns `True`: since
`revise` always reports `False`, the emptiness check (line 168) is never
reached, contradicting the docstring of `ac3` (lines 144-145). -/
theorem ac3_returns_true_despite_empty_domain :
    doms4 A4 ≠ [] ∧ (ac3 cw4 none doms4).1 A4 = [] ∧
    (ac3 cw4 none doms4).2 = true := by
  rw [ac3_eq]
  decide

/-- C5 (counter-evidence): on the three-slot chain `cw5`, `ac3` with the
default worklist returns success, but the resulting domains are not an
arc-consistent fixed point: the word `"b"` remains in C5's domain with no
supporting word left in B5's domain (the arc (C5, B5) was processed before
(B5, A5) pruned B5, and is never re-enqueued because `revise` always
reports `False`), and re-running `revise(C5, B5)` changes C5's domain. -/
theorem ac3_leaves_arc_inconsistency :
    (ac3 cw5 none doms5).2 = true ∧
    cw5.overlaps C5 B5 = some (0, 0) ∧
    ['b'] ∈ (ac3 cw5 none doms5).1 C5 ∧
    (∀ wy ∈ (ac3 cw5 none doms5).1 B5, ¬(['b'][0]? = wy[0]?)) ∧
    (revise cw5 (ac3 cw5 none doms5).1 C5 B5).1 C5 ≠ (ac3 cw5 none doms5).1 C5 := by
  rw [ac3_eq]
  decide

/-! ### Node consistency -/

theorem enfFold_ne :
    ∀ (l : List Variable) (d : Doms) (u : Variable), u ∉ l →
      l.foldl
        (fun d var => updateDom d var (eraseIf (fun w => w.length != var.length) (d var) (d var)))
        d u = d u := by
  intro l
  induction l with
  | nil => intro d u _; rfl
  | cons v rest ih =>
      intro d u hu
      rw [List.foldl_cons, ih _ _ (fun h => hu (by simp [h])),
        updateDom_ne _ _ _ _ (fun h => hu (by simp [h]))]

theorem enfFold_mem :
    ∀ (l : List Variable) (d : Doms) (u : Variable), u ∈ l →
      l.foldl
        (fun d var => updateDom d var (eraseIf (fun w => w.length != var.length) (d var) (d var)))
        d u = (d u).filter (fun w => w.length == u.length) := by
  intro l
  induction l with
  | nil => intro d u h; cases h
  | cons v rest ih =>
      intro d u hu
      rw [List.foldl_cons]
      by_cases hmem : u ∈ rest
      · rw [ih _ _ hmem]
        by_cases huv : u = v
        · subst huv
          rw [updateDom_self, eraseIf_self, List.filter_filter]
          apply List.filter_congr
          intro a _
          simp [bne, Bool.not_not, Bool.and_self]
        · rw [updateDom_ne _ _ _ _ huv]
      · have huv : u = v := by
          rcases List.mem_cons.mp hu with h | h
          · exact h
          · exact absurd h hmem
        subst huv
        rw [enfFold_ne rest _ u hmem, updateDom_self, eraseIf_self]
        apply List.filter_congr
        intro a _
        simp [bne, Bool.not_not]

theorem enforce_at_mem (cw : Crossword) (doms : Doms) (s : Variable)
    (hs : s ∈ cw.vars) :
    enforceNodeConsistency cw doms s = (doms s).filter (fun w => w.length == s.length) := by
  simp only [enforceNodeConsistency]
  exact enfFold_mem cw.vars doms s hs

/-- C7: after `enforce_node_consistency`, every word remaining in a slot's
domain has the slot's length, and every word dropped from the domain had a
different length. -/
theorem enforce_node_consistency_spec (cw : Crossword) (doms : Doms) (s : Variable)
    (hs : s ∈ cw.vars) :
    (∀ w ∈ enforceNodeConsistency cw doms s, w.length = s.length) ∧
    (∀ w ∈ doms s, w ∉ enforceNodeConsistency cw doms s → w.length ≠ s.length) := by
  rw [enforce_at_mem cw doms s hs]
  constructor
  · intro w hw
    have := (List.mem_filter.mp hw).2
    simpa using this
  · intro w hw hnot heq
    exact hnot (List.mem_filter.mpr ⟨hw, by simp [heq]⟩)

theorem enforce_node_consistency_spec_witness :
    A4 ∈ cw4.vars ∧
    ((∀ w ∈ enforceNodeConsistency cw4 doms4 A4, w.length = A4.length) ∧
     (∀ w ∈ doms4 A4, w ∉ enforceNodeConsistency cw4 doms4 A4 → w.length ≠ A4.length)) :=
  ⟨by decide, enforce_node_consistency_spec cw4 doms4 A4 (by decide)⟩

/-! ### The variable-selection heuristics -/

theorem minLoop_step_lt (doms : Doms) (v : Variable) (rest : List Variable)
    (h0 : Variable) (t0 : List Variable)
    (hlt : (doms v).length < (doms h0).length) :
    minLoop doms (v :: rest) (h0 :: t0) = minLoop doms rest [v, v] := by
  simp [minLoop, hlt]

theorem minLoop_step_eq (doms : Doms) (v : Variable) (rest : List Variable)
    (h0 : Variable) (t0 : List Variable)
    (hlt : ¬(doms v).length < (doms h0).length)
    (heq : (doms v).length = (doms h0).length) :
    minLoop doms (v :: rest) (h0 :: t0) = minLoop doms rest (h0 :: (t0 ++ [v])) := by
  simp [minLoop, hlt, heq]

theorem minLoop_step_gt (doms : Doms) (v : Variable) (rest : List Variable)
    (h0 : Variable) (t0 : List Variable)
    (hlt : ¬(doms v).length < (doms h0).length)
    (hne : (doms v).length ≠ (doms h0).length) :
    minLoop doms (v :: rest) (h0 :: t0) = minLoop doms rest (h0 :: t0) := by
  simp [minLoop, hlt, hne]

/-- Invariant of the `min_var` loop: the result is nonempty, all its
members share the head's domain size, that size is the minimum of the
initial head's size and the sizes over the traversed slots, every slot
achieving it (from the accumulator or the traversed list) is kept, and
every member comes from the accumulator or the traversed list. -/
theorem minLoop_spec (doms : Doms) :
    ∀ (l : List Variable) (h0 : Variable) (t0 : List Variable),
      (∀ e ∈ h0 :: t0, (doms e).length = (doms h0).length) →
      ∃ hR tR, minLoop doms l (h0 :: t0) = hR :: tR ∧
        (∀ e ∈ hR :: tR, (doms e).length = (doms hR).length) ∧
        (doms hR).length ≤ (doms h0).length ∧
        (∀ v ∈ l, (doms hR).length ≤ (doms v).length) ∧
        (∀ e ∈ h0 :: t0, (doms e).length = (doms hR).length → e ∈ hR :: tR) ∧
        (∀ v ∈ l, (doms v).length = (doms hR).length → v ∈ hR :: tR) ∧
        (∀ e ∈ hR :: tR, e ∈ h0 :: t0 ∨ e ∈ l) := by
  intro l
  induction l with
  | nil =>
      intro h0 t0 hinv
      exact ⟨h0, t0, rfl, hinv, Nat.le_refl _, by simp, fun e he _ => he, by simp,
        fun e he => Or.inl he⟩
  | cons v rest ih =>
      intro h0 t0 hinv
      by_cases hlt : (doms v).length < (doms h0).length
      · obtain ⟨hR, tR, heqr, hinv', hle', hleml, haccm, hlm, hsrc⟩ :=
          ih v [v] (by simp)
        refine ⟨hR, tR, by rw [minLoop_step_lt doms v rest h0 t0 hlt]; exact heqr,
          hinv', hle'.trans (Nat.le_of_lt hlt), ?_, ?_, ?_, ?_⟩
        · intro u hu
          rcases List.mem_cons.mp hu with h | h
          · rw [h]; exact hle'
          · exact hleml u h
        · intro e he hde
          exfalso
          have h1 : (doms e).length = (doms h0).length := hinv e he
          have h2 : (doms hR).length < (doms h0).length := Nat.lt_of_le_of_lt hle' hlt
          omega
        · intro u hu hdu
          rcases List.mem_cons.mp hu with h | h
          · subst h; exact haccm u (by simp) hdu
          · exact hlm u h hdu
        · intro e he
          rcases hsrc e he with h | h
          · right
            rcases List.mem_cons.mp h with h' | h'
            · simp [h']
            · simp at h'; simp [h']
          · right; exact List.mem_cons_of_mem _ h
      · by_cases heq : (doms v).length = (doms h0).length
        · have hinv2 : ∀ e ∈ h0 :: (t0 ++ [v]), (doms e).length = (doms h0).length := by
            intro e he
            rcases List.mem_cons.mp he with h | h
            · simp [h]
            · rcases List.mem_append.mp h with h' | h'
              · exact hinv e (List.mem_cons_of_mem _ h')
              · simp at h'; simp [h', heq]
          obtain ⟨hR, tR, heqr, hinv', hle', hleml, haccm, hlm, hsrc⟩ :=
            ih h0 (t0 ++ [v]) hinv2
          refine ⟨hR, tR, by rw [minLoop_step_eq doms v rest h0 t0 hlt heq]; exact heqr,
            hinv', hle', ?_, ?_, ?_, ?_⟩
          · intro u hu
            rcases List.mem_cons.mp hu with h | h
            · subst h
              have := hle'
              omega
            · exact hleml u h
          · intro e he hde
            refine haccm e ?_ hde
            rcases List.mem_cons.mp he with h | h
            · simp [h]
            · exact List.mem_cons_of_mem _ (List.mem_append.mpr (Or.inl h))
          · intro u hu hdu
            rcases List.mem_cons.mp hu with h | h
            · subst h
              exact haccm u (List.mem_cons_of_mem _ (List.mem_append.mpr (Or.inr (by simp)))) hdu
            · exact hlm u h hdu
          · intro e he
            rcases hsrc e he with h | h
            · rcases List.mem_cons.mp h with h' | h'
              · left; simp [h']
              · rcases List.mem_append.mp h' with h'' | h''
                · left; exact List.mem_cons_of_mem _ h''
                · simp at h''; right; simp [h'']
            · right; exact List.mem_cons_of_mem _ h
        · obtain ⟨hR, tR, heqr, hinv', hle', hleml, haccm, hlm, hsrc⟩ := ih h0 t0 hinv
          refine ⟨hR, tR, by rw [minLoop_step_gt doms v rest h0 t0 hlt heq]; exact heqr,
            hinv', hle', ?_, haccm, ?_, ?_⟩
          · intro u hu
            rcases List.mem_cons.mp hu with h | h
            · subst h
              have h2 : (doms h0).length ≤ (doms u).length := Nat.le_of_not_lt hlt
              omega
            · exact hleml u h
          · intro u hu hdu
            rcases List.mem_cons.mp hu with h | h
            · subst h
              have h2 : (doms h0).length ≤ (doms u).length := Nat.le_of_not_lt hlt
              omega
            · exact hlm u h hdu
          · intro e he
            rcases hsrc e he with h | h
            · exact Or.inl h
            · exact Or.inr (List.mem_cons_of_mem _ h)

/-- Invariant of the degree loop: the result is the initial best or one of
the traversed slots, its neighbor count dominates the initial bound and
every traversed slot's neighbor count. -/
theorem degLoop_spec (cw : Crossword) :
    ∀ (l : List Variable) (bd : Nat) (best : Variable),
      (neighbors cw best).length = bd →
      (degLoop cw l bd best = best ∨ degLoop cw l bd best ∈ l) ∧
      bd ≤ (neighbors cw (degLoop cw l bd best)).length ∧
      (∀ v ∈ l, (neighbors cw v).length ≤ (neighbors cw (degLoop cw l bd best)).length) := by
  intro l
  induction l with
  | nil =>
      intro bd best hbd
      refine ⟨Or.inl rfl, ?_, by simp⟩
      simp only [degLoop]
      omega
  | cons v rest ih =>
      intro bd best hbd
      by_cases hgt : (neighbors cw v).length > bd
      · have hstep : degLoop cw (v :: rest) bd best =
            degLoop cw rest (neighbors cw v).length v := by
          simp [degLoop, hgt]
        obtain ⟨hmem, hble, hall⟩ := ih (neighbors cw v).length v rfl
        rw [hstep]
        refine ⟨?_, Nat.le_trans (Nat.le_of_lt hgt) hble, ?_⟩
        · rcases hmem with h | h
          · right; simp [h]
          · right; exact List.mem_cons_of_mem _ h
        · intro u hu
          rcases List.mem_cons.mp hu with h | h
          · subst h; exact hble
          · exact hall u h
      · have hstep : degLoop cw (v :: rest) bd best = degLoop cw rest bd best := by
          simp [degLoop, hgt]
        obtain ⟨hmem, hble, hall⟩ := ih bd best hbd
        rw [hstep]
        refine ⟨?_, hble, ?_⟩
        · rcases hmem with h | h
          · exact Or.inl h
          · exact Or.inr (List.mem_cons_of_mem _ h)
        · intro u hu
          rcases List.mem_cons.mp hu with h | h
          · subst h; exact Nat.le_trans (Nat.le_of_not_lt hgt) hble
          · exact hall u h

/-- What `select_unassigned_variable` guarantees: the returned slot is
unassigned, has minimal domain size among unassigned slots, and maximal
neighbor count among the unassigned slots of that minimal domain size. -/
theorem select_spec (cw : Crossword) (doms : Doms) (a : Assign)
    (hne : cw.vars.filter (fun v => !assignedIn a v) ≠ []) :
    selectUnassignedVariable cw doms a ∈ cw.vars ∧
    assignedIn a (selectUnassignedVariable cw doms a) = false ∧
    (∀ u ∈ cw.vars, assignedIn a u = false →
      (doms (selectUnassignedVariable cw doms a)).length ≤ (doms u).length) ∧
    (∀ u ∈ cw.vars, assignedIn a u = false →
      (doms u).length = (doms (selectUnassignedVariable cw doms a)).length →
      (neighbors cw u).length ≤ (neighbors cw (selectUnassignedVariable cw doms a)).length) := by
  obtain ⟨f0, us, hua⟩ := List.exists_cons_of_ne_nil hne
  obtain ⟨hR, tR, heqr, hinv', hle', hleml, haccm, hlm, hsrc⟩ :=
    minLoop_spec doms (f0 :: us) f0 [] (by simp)
  have hsel : selectUnassignedVariable cw doms a =
      degLoop cw (hR :: tR) (neighbors cw hR).length hR := by
    simp only [selectUnassignedVariable]
    rw [hua]
    simp only [List.headD_cons]
    rw [heqr]
    simp only [List.headD_cons]
  obtain ⟨hdm, hdble, hdall⟩ := degLoop_spec cw (hR :: tR) (neighbors cw hR).length hR rfl
  have hselmem : degLoop cw (hR :: tR) (neighbors cw hR).length hR ∈ hR :: tR := by
    rcases hdm with h | h
    · rw [h]; simp
    · exact h
  have hselua : degLoop cw (hR :: tR) (neighbors cw hR).length hR ∈ f0 :: us := by
    rcases hsrc _ hselmem with h | h
    · simp at h; simp [h]
    · exact h
  have hselfil : degLoop cw (hR :: tR) (neighbors cw hR).length hR ∈
      cw.vars.filter (fun v => !assignedIn a v) := hua ▸ hselua
  rw [hsel]
  refine ⟨(List.mem_filter.mp hselfil).1, ?_, ?_, ?_⟩
  · have h2 := (List.mem_filter.mp hselfil).2
    cases hb : assignedIn a (degLoop cw (hR :: tR) (neighbors cw hR).length hR)
    · rfl
    · rw [hb] at h2; exact absurd h2 (by simp)
  · intro u hu hun
    have huua : u ∈ f0 :: us := by
      rw [← hua]
      exact List.mem_filter.mpr ⟨hu, by simp [hun]⟩
    have h1 : (doms (degLoop cw (hR :: tR) (neighbors cw hR).length hR)).length =
        (doms hR).length := hinv' _ hselmem
    have h2 : (doms hR).length ≤ (doms u).length := hleml u huua
    omega
  · intro u hu hun hdeq
    have huua : u ∈ f0 :: us := by
      rw [← hua]
      exact List.mem_filter.mpr ⟨hu, by simp [hun]⟩
    have h1 : (doms (degLoop cw (hR :: tR) (neighbors cw hR).length hR)).length =
        (doms hR).length := hinv' _ hselmem
    have hdu : (doms u).length = (doms hR).length := by omega
    exact hdall u (hlm u huua hdu)

theorem assignedIn_iff_mem_keys (a : Assign) (v : Variable) :
    assignedIn a v = true ↔ v ∈ a.map Prod.fst := by
  simp [assignedIn, List.any_eq_true, List.mem_map, beq_iff_eq]

theorem assignedIn_false_iff (a : Assign) (v : Variable) :
    assignedIn a v = false ↔ v ∉ a.map Prod.fst := by
  rw [← assignedIn_iff_mem_keys]
  cases h : assignedIn a v <;> simp

/-- A non-complete assignment with distinct keys drawn from a duplicate-free
slot list leaves at least one slot unassigned. -/
theorem unassigned_ne_nil (cw : Crossword) (a : Assign)
    (hv : cw.vars.Nodup) (hk : ∀ p ∈ a, p.1 ∈ cw.vars)
    (hnd : (a.map Prod.fst).Nodup) (hinc : assignmentComplete cw a = false) :
    cw.vars.filter (fun v => !assignedIn a v) ≠ [] := by
  intro hnil
  have hall : ∀ v ∈ cw.vars, v ∈ a.map Prod.fst := by
    intro v hvv
    have hno := List.filter_eq_nil_iff.mp hnil v hvv
    refine (assignedIn_iff_mem_keys a v).mp ?_
    cases hb : assignedIn a v
    · exact absurd (by simp [hb]) hno
    · rfl
  have hsub1 : a.map Prod.fst ⊆ cw.vars := by
    intro e he
    obtain ⟨p, hp, hpe⟩ := List.mem_map.mp he
    exact hpe ▸ hk p hp
  have h1 := (List.subperm_of_subset hnd hsub1).length_le
  have h2 := (List.subperm_of_subset hv hall).length_le
  rw [List.length_map] at h1 h2
  have hlen : cw.vars.length = a.length := Nat.le_antisymm h2 h1
  rw [assignmentComplete, hlen] at hinc
  simp at hinc

/-- C8: for a non-complete assignment (keys distinct, drawn from the slot
list), `select_unassigned_variable` returns an unassigned slot whose domain
size is minimal among unassigned slots and whose neighbor count is maximal
among the unassigned slots achieving that minimal domain size. -/
theorem select_unassigned_variable_heuristics (cw : Crossword) (doms : Doms)
    (a : Assign) (hv : cw.vars.Nodup) (hk : ∀ p ∈ a, p.1 ∈ cw.vars)
    (hnd : (a.map Prod.fst).Nodup) (hinc : assignmentComplete cw a = false) :
    selectUnassignedVariable cw doms a ∈ cw.vars ∧
    assignedIn a (selectUnassignedVariable cw doms a) = false ∧
    (∀ u ∈ cw.vars, assignedIn a u = false →
      (doms (selectUnassignedVariable cw doms a)).length ≤ (doms u).length) ∧
    (∀ u ∈ cw.vars, assignedIn a u = false →
      (doms u).length = (doms (selectUnassignedVariable cw doms a)).length →
      (neighbors cw u).length ≤ (neighbors cw (selectUnassignedVariable cw doms a)).length) :=
  select_spec cw doms a (unassigned_ne_nil cw a hv hk hnd hinc)

theorem select_unassigned_variable_heuristics_witness :
    (cw5.vars.Nodup ∧ (∀ p ∈ ([] : Assign), p.1 ∈ cw5.vars) ∧
      (([] : Assign).map Prod.fst).Nodup ∧ assignmentComplete cw5 [] = false) ∧
    (selectUnassignedVariable cw5 doms5 [] ∈ cw5.vars ∧
     assignedIn [] (selectUnassignedVariable cw5 doms5 []) = false ∧
     (∀ u ∈ cw5.vars, assignedIn [] u = false →
       (doms5 (selectUnassignedVariable cw5 doms5 [])).length ≤ (doms5 u).length) ∧
     (∀ u ∈ cw5.vars, assignedIn [] u = false →
       (doms5 u).length = (doms5 (selectUnassignedVariable cw5 doms5 [])).length →
       (neighbors cw5 u).length ≤
         (neighbors cw5 (selectUnassignedVariable cw5 doms5 [])).length)) :=
  ⟨⟨by decide, by decide, by decide, by decide⟩,
   select_unassigned_variable_heuristics cw5 doms5 [] (by decide) (by decide)
     (by decide) (by decide)⟩

/-! ### Unsatisfiable length requirements -/

theorem ac3_fst_mono (cw : Crossword) (o : Option (List (Variable × Variable)))
    (d : Doms) (u : Variable) : (ac3 cw o d).1 u ⊆ d u := by
  rw [ac3_eq]
  exact foldl_revise_mono cw _ d u

theorem orderDomainValues_nil (cw : Crossword) (doms : Doms) (var : Variable)
    (a : Assign) (h : doms var = []) : orderDomainValues cw doms var a = [] := by
  simp [orderDomainValues, h]

/-- C6: when the word pool has no word of the length some slot requires,
`solve` returns the "no solution" value.  (After node consistency that
slot's domain is empty; `ac3` only shrinks domains; `backtrack` selects a
minimal-domain slot — hence an empty-domain one — has no values to try,
and fails.) -/
theorem solve_none_of_no_fitting_word (cw : Crossword) (v : Variable)
    (hmem : v ∈ cw.vars) (hlen : ∀ w ∈ cw.words, w.length ≠ v.length) :
    solve cw = none := by
  have hd1 : enforceNodeConsistency cw (initDomains cw) v = [] := by
    rw [enforce_at_mem cw _ v hmem]
    apply List.filter_eq_nil_iff.mpr
    intro w hw
    simp only [initDomains] at hw
    simp [hlen w hw]
  have hd2 : (ac3 cw none (enforceNodeConsistency cw (initDomains cw))).1 v = [] := by
    refine List.subset_nil.mp ?_
    rw [← hd1]
    exact ac3_fst_mono cw none _ v
  have hvne : cw.vars ≠ [] := List.ne_nil_of_mem hmem
  have hcomp : assignmentComplete cw ([] : Assign) = false := by
    have hlen0 : cw.vars.length ≠ 0 := fun h => hvne (List.length_eq_zero.mp h)
    simp [assignmentComplete, hlen0]
  have hfilter : cw.vars.filter (fun u => !assignedIn ([] : Assign) u) = cw.vars :=
    List.filter_eq_self.mpr fun u _ => rfl
  have hne : cw.vars.filter (fun u => !assignedIn ([] : Assign) u) ≠ [] := by
    rw [hfilter]; exact hvne
  obtain ⟨_, _, hmin, _⟩ :=
    select_spec cw ((ac3 cw none (enforceNodeConsistency cw (initDomains cw))).1) [] hne
  have hseldom : (ac3 cw none (enforceNodeConsistency cw (initDomains cw))).1
      (selectUnassignedVariable cw
        ((ac3 cw none (enforceNodeConsistency cw (initDomains cw))).1) []) = [] := by
    have h0 := hmin v hmem rfl
    rw [hd2] at h0
    exact List.length_eq_zero.mp (Nat.le_zero.mp h0)
  have hbt : backtrack cw ((ac3 cw none (enforceNodeConsistency cw (initDomains cw))).1)
      (cw.vars.length + 1) [] = ([], false) := by
    rw [backtrack]
    simp only [hcomp, Bool.false_eq_true, if_false]
    rw [orderDomainValues_nil _ _ _ _ hseldom]
    rfl
  simp only [solve]
  rw [hbt]
  rfl

/-! ### Assignment-dictionary lemmas -/

/-- The invariant of every assignment the search manipulates: keys are
slots of the puzzle and are pairwise distinct (Python dict keys are
unique). -/
def goodAssign (cw : Crossword) (a : Assign) : Prop :=
  (∀ p ∈ a, p.1 ∈ cw.vars) ∧ (a.map Prod.fst).Nodup

theorem lookupA_mem (a : Assign) (v : Variable) (w : Word)
    (h : lookupA a v = some w) : (v, w) ∈ a := by
  rw [lookupA] at h
  obtain ⟨p, hp, hpw⟩ := Option.map_eq_some'.mp h
  have hmem := List.mem_of_find?_eq_some hp
  have hkey := List.find?_some hp
  have hpv : p = (v, w) := by
    obtain ⟨p1, p2⟩ := p
    simp_all
  exact hpv ▸ hmem

theorem lookupA_isSome_of_mem_keys (a : Assign) (v : Variable)
    (h : v ∈ a.map Prod.fst) : ∃ w, lookupA a v = some w := by
  obtain ⟨p, hp, hpe⟩ := List.mem_map.mp h
  have hs : (a.find? fun q => q.1 == v).isSome :=
    List.find?_isSome.mpr ⟨p, hp, by simp [hpe]⟩
  obtain ⟨q, hq⟩ := Option.isSome_iff_exists.mp hs
  exact ⟨q.2, by simp [lookupA, hq]⟩

theorem updateA_not_mem (a : Assign) (v : Variable) (w : Word)
    (h : v ∉ a.map Prod.fst) : updateA a v w = a ++ [(v, w)] := by
  rw [updateA, if_neg]
  intro hany
  exact h ((assignedIn_iff_mem_keys a v).mp hany)

theorem keys_updateA_not_mem (a : Assign) (v : Variable) (w : Word)
    (h : v ∉ a.map Prod.fst) :
    (updateA a v w).map Prod.fst = a.map Prod.fst ++ [v] := by
  rw [updateA_not_mem a v w h, List.map_append]
  rfl

theorem goodAssign_updateA (cw : Crossword) (a : Assign) (v : Variable) (w : Word)
    (hg : goodAssign cw a) (hv : v ∈ cw.vars) (hnm : v ∉ a.map Prod.fst) :
    goodAssign cw (updateA a v w) := by
  constructor
  · intro p hp
    rw [updateA_not_mem a v w hnm] at hp
    rcases List.mem_append.mp hp with h | h
    · exact hg.1 p h
    · simp at h
      simp [h, hv]
  · rw [keys_updateA_not_mem a v w hnm, List.nodup_append]
    refine ⟨hg.2, by simp, ?_⟩
    intro e he he'
    simp at he'
    exact hnm (he' ▸ he)

theorem popA_updateA (a : Assign) (v : Variable) (w : Word)
    (h : v ∉ a.map Prod.fst) : popA (updateA a v w) v = a := by
  rw [updateA_not_mem a v w h, popA, List.filter_append]
  have h1 : a.filter (fun p => p.1 != v) = a := by
    apply List.filter_eq_self.mpr
    intro p hp
    rw [bne_iff_ne]
    intro hpe
    exact h (List.mem_map.mpr ⟨p, hp, hpe⟩)
  rw [h1]
  simp

theorem goodAssign_popA (cw : Crossword) (a : Assign) (v : Variable)
    (hg : goodAssign cw a) : goodAssign cw (popA a v) := by
  constructor
  · intro p hp
    exact hg.1 p (List.mem_filter.mp hp).1
  · exact List.Nodup.sublist ((List.filter_sublist a).map Prod.fst) hg.2

theorem complete_all_mem_keys (cw : Crossword) (a : Assign) (hv : cw.vars.Nodup)
    (hg : goodAssign cw a) (hc : assignmentComplete cw a = true) :
    ∀ v ∈ cw.vars, v ∈ a.map Prod.fst := by
  have hlen : cw.vars.length = a.length := beq_iff_eq.mp hc
  have hsub : a.map Prod.fst ⊆ cw.vars := by
    intro e he
    obtain ⟨p, hp, hpe⟩ := List.mem_map.mp he
    exact hpe ▸ hg.1 p hp
  have hsp := List.subperm_of_subset hg.2 hsub
  have hperm := hsp.perm_of_length_le (by rw [List.length_map]; omega)
  intro v hvv
  exact hperm.mem_iff.mpr hvv

/-- Components of `consistent`: distinct words, matching lengths, overlap
agreement. -/
theorem consistent_parts (cw : Crossword) (a : Assign) (h : consistent cw a = true) :
    (∀ p ∈ a, ∀ q ∈ a, p.1 = q.1 ∨ p.2 ≠ q.2) ∧
    (∀ p ∈ a, p.1.length = p.2.length) ∧
    (∀ p ∈ a, ∀ nb ∈ neighbors cw p.1, ∀ i j, cw.overlaps p.1 nb = some (i, j) →
      ∀ wnb, lookupA a nb = some wnb → p.2[i]? = wnb[j]?) := by
  rw [consistent, Bool.and_eq_true, Bool.and_eq_true] at h
  obtain ⟨⟨h1, h2⟩, h3⟩ := h
  refine ⟨?_, ?_, ?_⟩
  · intro p hp q hq
    have hpq := (List.all_eq_true.mp ((List.all_eq_true.mp h1) p hp)) q hq
    rw [Bool.or_eq_true] at hpq
    rcases hpq with h' | h'
    · exact Or.inl (beq_iff_eq.mp h')
    · exact Or.inr (bne_iff_ne.mp h')
  · intro p hp
    exact beq_iff_eq.mp ((List.all_eq_true.mp h2) p hp)
  · intro p hp nb hnb i j ho wnb hlook
    have hnbtest := (List.all_eq_true.mp ((List.all_eq_true.mp h3) p hp)) nb hnb
    rw [Bool.or_eq_true] at hnbtest
    have hassigned : assignedIn a nb = true :=
      List.any_eq_true.mpr ⟨(nb, wnb), lookupA_mem a nb wnb hlook, by simp⟩
    rcases hnbtest with h' | h'
    · rw [hassigned] at h'
      simp at h'
    · rw [ho, hlook] at h'
      exact beq_iff_eq.mp h'

/-! ### The backtracking-search invariant -/

/-- The value loop of `backtrack`: on failure it restores its input
assignment; on success its result is a well-formed, complete, consistent
assignment.  Stated for any recursion oracle `bt` enjoying the same
restore/soundness properties. -/
theorem tryValues_invariant (cw : Crossword) (bt : Assign → Assign × Bool)
    (var : Variable) (hvar : var ∈ cw.vars)
    (hbt : ∀ a', goodAssign cw a' →
      (((bt a').2 = false → (bt a').1 = a') ∧
       ((bt a').2 = true → goodAssign cw (bt a').1 ∧
         assignmentComplete cw (bt a').1 = true ∧
         (consistent cw (bt a').1 = true ∨ (bt a').1 = a')))) :
    ∀ (vals : List Word) (a : Assign), goodAssign cw a → var ∉ a.map Prod.fst →
      ((tryValues cw bt var vals a).2 = false → (tryValues cw bt var vals a).1 = a) ∧
      ((tryValues cw bt var vals a).2 = true →
        goodAssign cw (tryValues cw bt var vals a).1 ∧
        assignmentComplete cw (tryValues cw bt var vals a).1 = true ∧
        consistent cw (tryValues cw bt var vals a).1 = true) := by
  intro vals
  induction vals with
  | nil =>
      intro a _ _
      constructor
      · intro _; rfl
      · intro h; simp [tryValues] at h
  | cons w ws ih =>
      intro a hg hnm
      by_cases hc : consistent cw (updateA a var w) = true
      · have hga1 : goodAssign cw (updateA a var w) :=
          goodAssign_updateA cw a var w hg hvar hnm
        obtain ⟨hrestore, hsound⟩ := hbt (updateA a var w) hga1
        by_cases hr2 : (bt (updateA a var w)).2 = true
        · have hstep : tryValues cw bt var (w :: ws) a = bt (updateA a var w) := by
            simp [tryValues, hc, hr2]
          rw [hstep]
          obtain ⟨hg', hcomp', hcons'⟩ := hsound hr2
          constructor
          · intro hfalse
            rw [hfalse] at hr2
            exact absurd hr2 (by simp)
          · intro _
            refine ⟨hg', hcomp', ?_⟩
            rcases hcons' with h | h
            · exact h
            · rw [h]; exact hc
        · have hr2f : (bt (updateA a var w)).2 = false := by
            cases hb : (bt (updateA a var w)).2
            · rfl
            · exact absurd hb hr2
          have hpop : popA (bt (updateA a var w)).1 var = a := by
            rw [hrestore hr2f]
            exact popA_updateA a var w hnm
          have hstep : tryValues cw bt var (w :: ws) a = tryValues cw bt var ws a := by
            simp only [tryValues, if_pos hc]
            rw [if_neg (by simp [hr2f]), hpop]
          rw [hstep]
          exact ih a hg hnm
      · have hstep : tryValues cw bt var (w :: ws) a = tryValues cw bt var ws a := by
          simp [tryValues, hc]
        rw [hstep]
        exact ih a hg hnm

/-- The search invariant of `backtrack`: from a well-formed assignment, a
failed call restores its input exactly; a successful call returns a
well-formed, complete assignment that is consistent (or is the unchanged
input). -/
theorem backtrack_invariant (cw : Crossword) (doms : Doms) (hv : cw.vars.Nodup) :
    ∀ (fuel : Nat) (a : Assign), goodAssign cw a →
      ((backtrack cw doms fuel a).2 = false → (backtrack cw doms fuel a).1 = a) ∧
      ((backtrack cw doms fuel a).2 = true →
        goodAssign cw (backtrack cw doms fuel a).1 ∧
        assignmentComplete cw (backtrack cw doms fuel a).1 = true ∧
        (consistent cw (backtrack cw doms fuel a).1 = true ∨
          (backtrack cw doms fuel a).1 = a)) := by
  intro fuel
  induction fuel with
  | zero =>
      intro a _
      constructor
      · intro _; rfl
      · intro h; simp [backtrack] at h
  | succ fuel' ih =>
      intro a hg
      by_cases hcomp : assignmentComplete cw a = true
      · have hstep : backtrack cw doms (fuel' + 1) a = (a, true) := by
          rw [backtrack]
          simp [hcomp]
        rw [hstep]
        exact ⟨fun h => absurd h (by simp), fun _ => ⟨hg, hcomp, Or.inr rfl⟩⟩
      · have hcompf : assignmentComplete cw a = false := by
          cases hb : assignmentComplete cw a
          · rfl
          · exact absurd hb hcomp
        have hne := unassigned_ne_nil cw a hv hg.1 hg.2 hcompf
        obtain ⟨hvmem, hvun, _, _⟩ := select_spec cw doms a hne
        have hvnm : selectUnassignedVariable cw doms a ∉ a.map Prod.fst :=
          (assignedIn_false_iff a _).mp hvun
        have hstep : backtrack cw doms (fuel' + 1) a =
            tryValues cw (backtrack cw doms fuel') (selectUnassignedVariable cw doms a)
              (orderDomainValues cw doms (selectUnassignedVariable cw doms a) a) a := by
          rw [backtrack]
          simp [hcomp]
        rw [hstep]
        obtain ⟨h1, h2⟩ := tryValues_invariant cw (backtrack cw doms fuel')
          (selectUnassignedVariable cw doms a) hvmem (fun a' hg' => ih a' hg')
          (orderDomainValues cw doms (selectUnassignedVariable cw doms a) a) a hg hvnm
        refine ⟨h1, fun hs => ?_⟩
        obtain ⟨hg', hc', hcons'⟩ := h2 hs
        exact ⟨hg', hc', Or.inl hcons'⟩

/-- C10: if `backtrack` fails, the assignment dictionary holds exactly the
entries it held before the call (every tentative extension was popped). -/
theorem backtrack_restores_assignment_on_failure (cw : Crossword) (doms : Doms)
    (fuel : Nat) (a : Assign) (hv : cw.vars.Nodup)
    (hk : ∀ p ∈ a, p.1 ∈ cw.vars) (hnd : (a.map Prod.fst).Nodup)
    (hfail : (backtrack cw doms fuel a).2 = false) :
    (backtrack cw doms fuel a).1 = a :=
  (backtrack_invariant cw doms hv fuel a ⟨hk, hnd⟩).1 hfail

theorem backtrack_restores_assignment_on_failure_witness :
    (cw5.vars.Nodup ∧ (∀ p ∈ ([] : Assign), p.1 ∈ cw5.vars) ∧
      (([] : Assign).map Prod.fst).Nodup ∧ (backtrack cw5 doms5 0 []).2 = false) ∧
    (backtrack cw5 doms5 0 []).1 = [] :=
  ⟨⟨by decide, by decide, by decide, rfl⟩,
   backtrack_restores_assignment_on_failure cw5 doms5 0 [] (by decide) (by decide)
     (by decide) rfl⟩

/-- What C1 asserts of a returned solution: every slot is assigned, every
assigned word has its slot's length, assigned neighboring slots agree at
their overlap offsets, and assigned words are pairwise distinct. -/
def solutionValid (cw : Crossword) (r : Assign) : Prop :=
  (∀ v ∈ cw.vars, ∃ w, lookupA r v = some w) ∧
  (∀ v w, lookupA r v = some w → w.length = v.length) ∧
  (∀ x y wx wy i j, lookupA r x = some wx → lookupA r y = some wy →
    y ∈ neighbors cw x → cw.overlaps x y = some (i, j) → wx[i]? = wy[j]?) ∧
  (∀ x y wx wy, lookupA r x = some wx → lookupA r y = some wy → x ≠ y → wx ≠ wy)

/-- C1: whenever `solve` returns an assignment, that assignment is
complete, length-correct, agrees at every overlap between assigned
neighboring slots, and uses pairwise-distinct words. -/
theorem solve_returns_valid_solution (cw : Crossword) (hv : cw.vars.Nodup) :
    ∀ r, solve cw = some r → solutionValid cw r := by
  intro r hsol
  have hsol' : (if (backtrack cw ((ac3 cw none (enforceNodeConsistency cw (initDomains cw))).1)
      (cw.vars.length + 1) []).2 = true
      then some (backtrack cw ((ac3 cw none (enforceNodeConsistency cw (initDomains cw))).1)
        (cw.vars.length + 1) []).1 else none) = some r := hsol
  obtain ⟨hrest, hsound⟩ := backtrack_invariant cw
    ((ac3 cw none (enforceNodeConsistency cw (initDomains cw))).1) hv
    (cw.vars.length + 1) [] ⟨by simp, by simp⟩
  by_cases hok : (backtrack cw ((ac3 cw none (enforceNodeConsistency cw (initDomains cw))).1)
      (cw.vars.length + 1) []).2 = true
  · rw [if_pos hok] at hsol'
    have hr : (backtrack cw ((ac3 cw none (enforceNodeConsistency cw (initDomains cw))).1)
        (cw.vars.length + 1) []).1 = r := Option.some.inj hsol'
    obtain ⟨hg', hcomp', hcons'⟩ := hsound hok
    rw [hr] at hg' hcomp'
    have hcons : consistent cw r = true := by
      rcases hcons' with h | h
      · rw [hr] at h; exact h
      · rw [hr] at h; rw [h]; rfl
    obtain ⟨hdist, hlen, hover⟩ := consistent_parts cw r hcons
    refine ⟨?_, ?_, ?_, ?_⟩
    · intro v hvv
      exact lookupA_isSome_of_mem_keys r v (complete_all_mem_keys cw r hv hg' hcomp' v hvv)
    · intro v w hl
      exact (hlen (v, w) (lookupA_mem r v w hl)).symm
    · intro x y wx wy i j hlx hly hnb ho
      exact hover (x, wx) (lookupA_mem r x wx hlx) y hnb i j ho wy hly
    · intro x y wx wy hlx hly hxy heq
      rcases hdist (x, wx) (lookupA_mem r x wx hlx) (y, wy) (lookupA_mem r y wy hly) with h | h
      · exact hxy h
      · exact h heq
  · rw [if_neg hok] at hsol'
    exact Option.noConfusion hsol'

theorem solve_returns_valid_solution_witness :
    cw5.vars.Nodup ∧ (∀ r, solve cw5 = some r → solutionValid cw5 r) :=
  ⟨by decide, solve_returns_valid_solution cw5 (by decide)⟩

theorem solve_none_of_no_fitting_word_witness :
    (V6 ∈ cw6.vars ∧ (∀ w ∈ cw6.words, w.length ≠ V6.length)) ∧ solve cw6 = none :=
  ⟨⟨by decide, by decide⟩, solve_none_of_no_fitting_word cw6 V6 (by decide) (by decide)⟩
